import Mathlib

/-!
Shallow embedding of the complex-alignment tooling in `src/main.py` of the
tar_pmhc repository. Python strings are modelled as `List Char`; Python dicts
as association lists with in-place overwrite (`insertAt`) preserving insertion
order, and `defaultdict(list)` as an association list updated by `appendAt`.
All definitions are translated from the source; the profold2 helpers
(`decompose_pid`, `compose_pid`, `seq_index_split`), which are external
collaborators not under `src/`, are modelled from the spec's data model.
-/

/-- Association-list lookup, mirroring Python `d[k]` and `k in d`. -/
def alookup {κ β : Type} [DecidableEq κ] : List (κ × β) → κ → Option β
  | [], _ => none
  | kv :: t, k => if kv.1 = k then some kv.2 else alookup t k

/-- Python dict assignment `d[k] = v`: overwrite in place, else append. -/
def insertAt {κ β : Type} [DecidableEq κ] : List (κ × β) → κ → β → List (κ × β)
  | [], k, v => [(k, v)]
  | kv :: t, k, v => if kv.1 = k then (k, v) :: t else kv :: insertAt t k v

/-- Python `defaultdict(list)` update `d[k].append(c)`. -/
def appendAt {κ β : Type} [DecidableEq κ] : List (κ × List β) → κ → β → List (κ × List β)
  | [], k, c => [(k, [c])]
  | kv :: t, k, c => if kv.1 = k then (kv.1, kv.2 ++ [c]) :: t else kv :: appendAt t k c

/-- The list stored at key `k` (empty when absent), as `defaultdict(list)` reads it. -/
def covEntry {κ β : Type} [DecidableEq κ] (l : List (κ × List β)) (k : κ) : List β :=
  (alookup l k).getD []

/-- First whitespace-separated token of a header line (`desc.split()[0]` in the
source, for headers that do not begin with whitespace). -/
def firstToken (s : List Char) : List Char :=
  s.takeWhile (fun c => !c.isWhitespace)

/-- Modelled from the spec: decimal-number reading used by the domain-range
codec (`seq_index_split` lives in profold2, which is not under `src/`). -/
def parseNum (s : List Char) : Nat :=
  s.foldl (fun n c => n * 10 + (c.toNat - '0'.toNat)) 0

/-- Split a character list at every occurrence of `c`. -/
def splitOnChar (c : Char) : List Char → List (List Char)
  | [] => [[]]
  | x :: t =>
    if x = c then [] :: splitOnChar c t
    else
      match splitOnChar c t with
      | h :: r => (x :: h) :: r
      | [] => [[x]]

/-- Modelled from the spec: `seq_index_split` (profold2, not under `src/`)
reads the textual domain list into ordered 1-based inclusive ranges, for
example `1-5,8-10`; a single number denotes a one-element range. -/
def seqIndexSplit (s : List Char) : List (Nat × Nat) :=
  (splitOnChar ',' s).map (fun r =>
    let a := r.takeWhile (fun c => c != '-')
    if a.length = r.length then (parseNum r, parseNum r)
    else (parseNum a, parseNum (r.drop (a.length + 1))))

/-- Modelled from the spec: `decompose_pid` from `profold2.data.utils` (not
under `src/`). Per the spec's data model a composite identifier is a `base_id`
optionally suffixed with an underscore and a single-letter chain label,
optionally followed by a slash and a textual domain-range list. Returns
(base id, chain label, raw domain text). -/
def decomposePid (s : List Char) : List Char × Option Char × Option (List Char) :=
  let idPart := s.takeWhile (fun c => c != '/')
  let doms : Option (List Char) :=
    if idPart.length = s.length then none else some (s.drop (idPart.length + 1))
  match idPart.reverse with
  | c :: '_' :: restRev =>
    if c = '_' then (idPart, none, doms) else (restRev.reverse, some c, doms)
  | _ => (idPart, none, doms)

/-- Modelled from the spec: `compose_pid`; written inline in the source as
joining the base id, an underscore and the chain when a chain is present
(src/main.py lines 193, 221, 273). -/
def composePid (pid : List Char) (chain : Option Char) : List Char :=
  match chain with
  | some c => pid ++ ['_', c]
  | none => pid

/-- One entry of `align_data_dict` (src/main.py line 194): the tuple
`(domains, seq, desc, kwargs)` with `kwargs` holding `target_chain`. -/
structure AlignRec where
  domains : List (Nat × Nat)
  seq : List Char
  desc : List Char
  targetChain : Option Char
deriving DecidableEq

/-- The record store `align_data_dict`. -/
abbrev DataDict := List (List Char × AlignRec)

/-- The coverage accumulator `align_chain_dict`, a `defaultdict(list)`. -/
abbrev ChainDict := List (List Char × List (Option Char))

/-- An aliasing index `mapping_idx` (alias id to canonical id). -/
abbrev MapDict := List (List Char × List Char)

/-- Composite key under which a hit row is registered (src/main.py 187, 193). -/
def rowPdbId (desc : List Char) : List Char :=
  let d := decomposePid (firstToken desc)
  composePid d.1 d.2.1

/-- The alignment record registered for a hit row (src/main.py 187-194); an
absent or empty domain text yields an empty domain list. -/
def rowRec (seq desc : List Char) (tc : Option Char) : AlignRec :=
  let d := decomposePid (firstToken desc)
  let doms := match d.2.2 with
    | some ds => if ds = [] then [] else seqIndexSplit ds
    | none => []
  ⟨doms, seq, desc, tc⟩

/-- Keep the first occurrence of every element; models the Python set union of
the composite id and its aliases (src/main.py line 196), whose iteration order
is unspecified, as first-occurrence order. -/
def dedupFirst {κ : Type} [DecidableEq κ] : List κ → List κ
  | [] => []
  | x :: t => x :: (dedupFirst t).filter (fun y => decide (¬ y = x))

/-- Identifiers credited by one hit row (src/main.py line 196). -/
def creditIds (md : List (List Char × List (List Char))) (pdbId : List Char) :
    List (List Char) :=
  dedupFirst (pdbId :: ((alookup md pdbId).getD []))

/-- Credit one identifier: append its own chain label to its own base id's
coverage entry (src/main.py lines 197-200). -/
def creditStep (acc : ChainDict) (x : List Char) : ChainDict :=
  appendAt acc (decomposePid x).1 (decomposePid x).2.1

/-- Coverage labels a single row with header `desc` contributes to base `b`. -/
def rowCredits (md : List (List Char × List (List Char))) (desc : List Char)
    (b : List Char) : List (Option Char) :=
  (creditIds md (rowPdbId desc)).filterMap
    (fun x => if (decomposePid x).1 = b then some (decomposePid x).2.1 else none)

/-- Processing of one non-query row by `align_a3m` (src/main.py 186-200). -/
def alignRowStep (md : List (List Char × List (List Char))) (tc : Option Char)
    (DC : DataDict × ChainDict) (row : List Char × List Char) :
    DataDict × ChainDict :=
  (insertAt DC.1 (rowPdbId row.2) (rowRec row.1 row.2 tc),
   (creditIds md (rowPdbId row.2)).foldl creditStep DC.2)

/-- `align_a3m` (src/main.py 182-202): fold every non-query row of one chain's
alignment block into the record store and the coverage accumulator; `tc` is
the `target_chain` keyword argument. -/
def alignA3m (seqs descs : List (List Char))
    (md : List (List Char × List (List Char)))
    (DC : DataDict × ChainDict) (tc : Option Char) : DataDict × ChainDict :=
  (seqs.tail.zip descs.tail).foldl (alignRowStep md tc) DC

/-- `read_mapping_idx` (src/main.py 50-60): each (already whitespace-split)
line `k v` stores canonical `k` under alias `v`, later lines overwriting
earlier ones. -/
def readMappingIdx (lines : List (List Char × List Char)) (init : MapDict) :
    MapDict :=
  lines.foldl (fun d kv => insertAt d kv.2 kv.1) init

/-- The aliasing lookup performed by `read_a3m` before building the
alignment-block path (src/main.py line 174): identity fallback. -/
def resolvePid (m : MapDict) (x : List Char) : List Char :=
  (alookup m x).getD x

/-- The inner `_is_aligned` of `align_complex` (src/main.py 230-233). -/
def isAlignedHit (attrIdx : List (List Char × List Char))
    (chainIdx : List (List Char × List (List Char)))
    (pid : List Char) (chainList : List (Option Char)) : Bool :=
  match alookup attrIdx pid with
  | some _ =>
    match alookup chainIdx pid with
    | some req => decide (req.length = chainList.length)
    | none => false
  | none => false

/-- The completeness filter of `align_complex` (src/main.py line 238). -/
def filterComplete (attrIdx : List (List Char × List Char))
    (chainIdx : List (List Char × List (List Char)))
    (acc : ChainDict) : ChainDict :=
  acc.filter (fun kv => isAlignedHit attrIdx chainIdx kv.1 kv.2)

/-- Target-row construction of `align_complex` (src/main.py 244-251): the fold
state is `(target_seq, domains, n)` with `n` starting at 1. The source appends
no padding characters to `target_seq`; it only advances `n` by the chain
length plus 100. `n + q.length - 1` is the Python `n + len(seq) - 1`, which is
non-negative because `n` stays at least 1. -/
def buildTarget (qs : List (List Char)) : List Char × List (Nat × Nat) × Nat :=
  qs.foldl
    (fun acc q =>
      (acc.1 ++ q, acc.2.1 ++ [(acc.2.2, acc.2.2 + q.length - 1)],
       acc.2.2 + q.length + 100))
    ([], [], 1)

/-- The domain spans the loop of src/main.py 246-250 emits starting at `n`. -/
def spansFrom (n : Nat) : List (List Char) → List (Nat × Nat)
  | [] => []
  | q :: t => (n, n + q.length - 1) :: spansFrom (n + q.length + 100) t

/-- The 1-based start of chain `i` in the concatenated coordinate system. -/
def domStart (qs : List (List Char)) (i : Nat) : Nat :=
  1 + ((qs.take i).map (fun q => q.length + 100)).sum

/-- Leading-gap masking, the first substitution of src/main.py line 282:
the maximal leading run of gap characters becomes mask characters. -/
def maskLeadingGaps : List Char → List Char
  | [] => []
  | c :: t => if c = '-' then '*' :: maskLeadingGaps t else c :: t

/-- Gap normalization applied to a selected hit row (src/main.py 282-283):
first the leading gap run, then the trailing gap run of the result, is
replaced by the same number of mask characters (`_repl`, line 257-258). -/
def normalizeRow (s : List Char) : List Char :=
  (maskLeadingGaps (maskLeadingGaps s).reverse).reverse

/-- Record lookup of src/main.py 273-279: the id must appear in
`db_mapping_idx`, then the record is taken under the id itself, else under its
canonical image; `none` models a failed assertion. -/
def resolveRecord (alignData : DataDict) (mappingIdx : MapDict)
    (pdbId : List Char) : Option AlignRec :=
  match alookup mappingIdx pdbId with
  | none => none
  | some canon =>
    match alookup alignData pdbId with
    | some r => some r
    | none => alookup alignData canon

/-- Per-target-chain row selection of `align_complex` (src/main.py 268-285):
scan the hit's accumulated chains; the first record tagged with the current
target chain is selected and gap-normalized; when no record matches, the
contribution stays the initial placeholder of `len(seq)` mask characters. -/
def selectHitRow (alignData : DataDict) (mappingIdx : MapDict) (pid : List Char)
    (tc : Option Char) (qlen : Nat) : List (Option Char) → Option (List Char)
  | [] => some (List.replicate qlen '*')
  | ch :: rest =>
    match resolveRecord alignData mappingIdx (composePid pid ch) with
    | none => none
    | some r =>
      if r.targetChain = tc then some (normalizeRow r.seq)
      else selectHitRow alignData mappingIdx pid tc qlen rest

/-- The scan loop of `_is_aligned` in `mhc_filter_main` (src/main.py 504-533):
`i` and `j` advance in lockstep in every branch, so the loop is a simultaneous
recursion on both lists carrying the state (0 leading, 1 core, 2 trailing);
when either list is exhausted the loop exits and the function returns True. -/
def isAlignedScan : List Char → List Char → Nat → Bool
  | t :: ts, s :: ss, state =>
    if s.isLower then false
    else if state = 0 then
      if s = '-' then isAlignedScan ts ss 0
      else if t = s then isAlignedScan ts ss 1
      else false
    else if state = 1 then
      if s = '-' then isAlignedScan ts ss 2
      else if t = s then isAlignedScan ts ss 1
      else false
    else if s != '-' then false
    else isAlignedScan ts ss 2
  | _, _, _ => true

/-- The alignment-validity automaton `_is_aligned` of `mhc_filter_main`
(src/main.py 504-533), started in the leading state. -/
def mhcIsAligned (target seq : List Char) : Bool :=
  isAlignedScan target seq 0

/-! ## Helper lemmas -/

theorem alookup_insertAt {κ β : Type} [DecidableEq κ] (l : List (κ × β)) (k0 : κ)
    (v : β) (k : κ) :
    alookup (insertAt l k0 v) k = if k0 = k then some v else alookup l k := by
  induction l with
  | nil => rfl
  | cons kv t ih =>
    rcases kv with ⟨k1, v1⟩
    simp only [insertAt]
    by_cases h1 : k1 = k0
    · subst h1
      simp only [if_pos rfl, alookup]
      by_cases h2 : k1 = k <;> simp [h2]
    · simp only [if_neg h1, alookup, ih]
      by_cases h2 : k1 = k
      · subst h2
        have h4 : ¬ k0 = k1 := fun hh => h1 hh.symm
        simp [h4]
      · simp [h2]

theorem alookup_appendAt {κ β : Type} [DecidableEq κ] (l : List (κ × List β))
    (k : κ) (c : β) (b : κ) :
    alookup (appendAt l k c) b =
      if b = k then some ((alookup l k).getD [] ++ [c]) else alookup l b := by
  induction l with
  | nil =>
    simp only [appendAt, alookup]
    by_cases h : b = k
    · subst h; simp
    · have h2 : ¬ k = b := fun hh => h hh.symm
      simp [h, h2]
  | cons kv t ih =>
    rcases kv with ⟨k1, v1⟩
    simp only [appendAt]
    by_cases h1 : k1 = k
    · subst h1
      simp only [if_pos rfl, alookup]
      by_cases h2 : b = k1
      · subst h2
        simp
      · have h3 : ¬ k1 = b := fun hh => h2 hh.symm
        simp [h2, h3]
    · simp only [if_neg h1, alookup, ih]
      by_cases h2 : k1 = b
      · subst h2
        simp [h1]
      · simp [h2]

theorem covEntry_appendAt {κ β : Type} [DecidableEq κ] (l : List (κ × List β))
    (k : κ) (c : β) (b : κ) :
    covEntry (appendAt l k c) b =
      if b = k then covEntry l b ++ [c] else covEntry l b := by
  unfold covEntry
  rw [alookup_appendAt]
  by_cases h : b = k
  · subst h; simp
  · simp [h]

theorem findAppend {ρ : Type} (p : ρ → Bool) (a b : List ρ) :
    (a ++ b).find? p = match a.find? p with
      | some x => some x
      | none => b.find? p := by
  induction a with
  | nil => simp
  | cons x t ih =>
    by_cases h : p x
    · simp [List.find?_cons, h]
    · simp [List.find?_cons, h, ih]

theorem alookup_foldl_insertAt {ρ κ β : Type} [DecidableEq κ] (key : ρ → κ)
    (val : ρ → β) (rows : List ρ) (D : List (κ × β)) (k : κ) :
    alookup (rows.foldl (fun d r => insertAt d (key r) (val r)) D) k =
      match rows.reverse.find? (fun r => decide (key r = k)) with
      | some r => some (val r)
      | none => alookup D k := by
  induction rows generalizing D with
  | nil => rfl
  | cons r rs ih =>
    simp only [List.foldl_cons, List.reverse_cons]
    rw [ih, findAppend]
    cases hf : rs.reverse.find? (fun r => decide (key r = k)) with
    | some x => rfl
    | none =>
      by_cases h : key r = k
      · simp [List.find?_cons, h, alookup_insertAt]
      · simp [List.find?_cons, h, alookup_insertAt]

theorem mem_of_alookup_eq_some {κ β : Type} [DecidableEq κ] {l : List (κ × β)}
    {k : κ} {v : β} (h : alookup l k = some v) : (k, v) ∈ l := by
  induction l with
  | nil => simp [alookup] at h
  | cons kv t ih =>
    rcases kv with ⟨k1, v1⟩
    by_cases h1 : k1 = k
    · subst h1
      have h2 : v1 = v := by
        simp [alookup] at h
        exact h
      subst h2
      exact List.mem_cons_self _ _
    · simp only [alookup, if_neg h1] at h
      exact List.mem_cons_of_mem _ (ih h)

theorem alookup_filterKV {κ β : Type} [DecidableEq κ] (p : κ → β → Bool)
    (l : List (κ × β)) (k : κ) (v : β) (hnd : (l.map Prod.fst).Nodup) :
    alookup (l.filter (fun kv => p kv.1 kv.2)) k = some v ↔
      alookup l k = some v ∧ p k v = true := by
  induction l with
  | nil => simp [alookup]
  | cons kv t ih =>
    rcases kv with ⟨k1, v1⟩
    simp only [List.map_cons, List.nodup_cons] at hnd
    obtain ⟨hk1, ht⟩ := hnd
    by_cases hp : p k1 v1 = true
    · by_cases h1 : k1 = k
      · subst h1
        simp only [List.filter_cons, hp, if_true, alookup, if_pos rfl,
          Option.some.injEq]
        constructor
        · intro h
          subst h
          exact ⟨rfl, hp⟩
        · rintro ⟨h, _⟩
          exact h.symm ▸ rfl
      · simp only [List.filter_cons, hp, if_true, alookup, if_neg h1]
        exact ih ht
    · by_cases h1 : k1 = k
      · subst h1
        have hnone : alookup (List.filter (fun kv => p kv.1 kv.2) t) k1 = none := by
          cases hx : alookup (List.filter (fun kv => p kv.1 kv.2) t) k1 with
          | none => rfl
          | some w =>
            have hm := mem_of_alookup_eq_some hx
            have hm2 : (k1, w) ∈ t := List.mem_of_mem_filter hm
            exact absurd (List.mem_map.mpr ⟨(k1, w), hm2, rfl⟩) hk1
        constructor
        · intro h
          rw [List.filter_cons, if_neg hp] at h
          rw [hnone] at h
          cases h
        · rintro ⟨h, hpv⟩
          have hv : v1 = v := by
            simp [alookup] at h
            exact h
          subst hv
          exact absurd hpv hp
      · simp only [List.filter_cons, hp, if_false, alookup, if_neg h1]
        exact ih ht

theorem alignFold_fst (md : List (List Char × List (List Char))) (tc : Option Char)
    (rows : List (List Char × List Char)) (DC : DataDict × ChainDict) :
    (rows.foldl (alignRowStep md tc) DC).1 =
      rows.foldl (fun d r => insertAt d (rowPdbId r.2) (rowRec r.1 r.2 tc)) DC.1 := by
  induction rows generalizing DC with
  | nil => rfl
  | cons r rs ih =>
    simp only [List.foldl_cons]
    rw [ih]
    rfl

theorem alignFold_snd (md : List (List Char × List (List Char))) (tc : Option Char)
    (rows : List (List Char × List Char)) (DC : DataDict × ChainDict) :
    (rows.foldl (alignRowStep md tc) DC).2 =
      rows.foldl (fun c r => (creditIds md (rowPdbId r.2)).foldl creditStep c) DC.2 := by
  induction rows generalizing DC with
  | nil => rfl
  | cons r rs ih =>
    simp only [List.foldl_cons]
    rw [ih]
    rfl

theorem covEntry_creditsFold (ids : List (List Char)) (C : ChainDict) (b : List Char) :
    covEntry (ids.foldl creditStep C) b =
      covEntry C b ++ ids.filterMap
        (fun x => if (decomposePid x).1 = b then some (decomposePid x).2.1 else none) := by
  induction ids generalizing C with
  | nil => simp
  | cons x t ih =>
    simp only [List.foldl_cons, List.filterMap_cons]
    rw [ih]
    by_cases h : (decomposePid x).1 = b
    · rw [if_pos h]
      have hc : covEntry (creditStep C x) b = covEntry C b ++ [(decomposePid x).2.1] := by
        rw [creditStep, covEntry_appendAt, if_pos h.symm]
      rw [hc, List.append_assoc, List.singleton_append]
    · rw [if_neg h]
      have hc : covEntry (creditStep C x) b = covEntry C b := by
        rw [creditStep, covEntry_appendAt, if_neg (fun hh => h hh.symm)]
      rw [hc]

theorem covEntry_rowsFold (md : List (List Char × List (List Char))) (tc : Option Char)
    (rows : List (List Char × List Char)) (DC : DataDict × ChainDict) (b : List Char) :
    covEntry (rows.foldl (alignRowStep md tc) DC).2 b =
      covEntry DC.2 b ++ (rows.map (fun r => rowCredits md r.2 b)).flatten := by
  rw [alignFold_snd]
  generalize DC.2 = C
  induction rows generalizing C with
  | nil => simp
  | cons r rs ih =>
    simp only [List.foldl_cons, List.map_cons, List.flatten_cons]
    rw [ih, covEntry_creditsFold, List.append_assoc]
    rfl

theorem buildTarget_fold (qs : List (List Char)) (s0 : List Char)
    (ds0 : List (Nat × Nat)) (n0 : Nat) :
    qs.foldl
        (fun acc q =>
          (acc.1 ++ q, acc.2.1 ++ [(acc.2.2, acc.2.2 + q.length - 1)],
           acc.2.2 + q.length + 100))
        (s0, ds0, n0) =
      (s0 ++ qs.flatten, ds0 ++ spansFrom n0 qs,
       n0 + (qs.map (fun q => q.length + 100)).sum) := by
  induction qs generalizing s0 ds0 n0 with
  | nil => simp [spansFrom]
  | cons q t ih =>
    simp only [List.foldl_cons]
    rw [ih]
    simp only [List.flatten_cons, spansFrom, List.map_cons, List.sum_cons,
      Prod.mk.injEq, List.append_assoc, List.singleton_append]
    refine ⟨trivial, trivial, by omega⟩

theorem spansFrom_get? (qs : List (List Char)) (n i : Nat) (hi : i < qs.length) :
    (spansFrom n qs).get? i =
      some (n + ((qs.take i).map (fun q => q.length + 100)).sum,
            n + ((qs.take i).map (fun q => q.length + 100)).sum +
              (qs.get ⟨i, hi⟩).length - 1) := by
  induction qs generalizing n i with
  | nil => simp at hi
  | cons q t ih =>
    cases i with
    | zero => simp [spansFrom]
    | succ j =>
      have hj : j < t.length := Nat.lt_of_succ_lt_succ hi
      simp only [spansFrom, List.get?, List.take_succ_cons, List.map_cons,
        List.sum_cons]
      rw [ih (n + q.length + 100) j hj]
      have harith : n + q.length + 100 + ((t.take j).map (fun q => q.length + 100)).sum =
          n + (q.length + 100 + ((t.take j).map (fun q => q.length + 100)).sum) := by
        omega
      rw [harith]
      rfl

theorem length_maskLeadingGaps (s : List Char) :
    (maskLeadingGaps s).length = s.length := by
  induction s with
  | nil => rfl
  | cons c t ih =>
    by_cases h : c = '-'
    · simp [maskLeadingGaps, h, ih]
    · simp [maskLeadingGaps, h]

theorem maskLeadingGaps_replicate_append (a : Nat) (t : List Char) :
    maskLeadingGaps (List.replicate a '-' ++ t) =
      List.replicate a '*' ++ maskLeadingGaps t := by
  induction a with
  | zero => simp
  | succ m ih => simp [List.replicate_succ, maskLeadingGaps, ih]

theorem maskLeadingGaps_cons_of_ne {c : Char} (h : ¬ c = '-') (t : List Char) :
    maskLeadingGaps (c :: t) = c :: t := by
  simp [maskLeadingGaps, h]

theorem maskLeadingGaps_star_replicate (n : Nat) :
    maskLeadingGaps (List.replicate n '*') = List.replicate n '*' := by
  cases n with
  | zero => rfl
  | succ m =>
    rw [List.replicate_succ]
    exact maskLeadingGaps_cons_of_ne (by decide) _

theorem length_normalizeRow (s : List Char) :
    (normalizeRow s).length = s.length := by
  simp [normalizeRow, length_maskLeadingGaps]

theorem isAlignedScan_core_of_matches (s : List Char) :
    ∀ (r : List Char), (∀ c ∈ s, c.isLower = false) → (∀ c ∈ s, ¬ c = '-') →
      isAlignedScan (s ++ r) s 1 = true := by
  induction s with
  | nil =>
    intro r _ _
    cases r <;> rfl
  | cons c t ih =>
    intro r hlow hgap
    have hc : c.isLower = false := hlow c (List.mem_cons_self _ _)
    have hg : ¬ c = '-' := hgap c (List.mem_cons_self _ _)
    have hrec := ih r (fun x hx => hlow x (List.mem_cons_of_mem _ hx))
      (fun x hx => hgap x (List.mem_cons_of_mem _ hx))
    simp [isAlignedScan, hc, hg, hrec]

theorem isAlignedScan_false_of_lower (j : Nat) :
    ∀ (t s : List Char) (state : Nat) (hj : j < s.length), j < t.length →
      (s.get ⟨j, hj⟩).isLower = true → isAlignedScan t s state = false := by
  induction j with
  | zero =>
    intro t s state hj ht hlow
    cases s with
    | nil => simp at hj
    | cons b s' =>
      cases t with
      | nil => simp at ht
      | cons a t' =>
        have hb : b.isLower = true := hlow
        simp [isAlignedScan, hb]
  | succ i ih =>
    intro t s state hj ht hlow
    cases s with
    | nil => simp at hj
    | cons b s' =>
      cases t with
      | nil => simp at ht
      | cons a t' =>
        have hj' : i < s'.length := Nat.lt_of_succ_lt_succ hj
        have ht' : i < t'.length := Nat.lt_of_succ_lt_succ ht
        have hlow' : (s'.get ⟨i, hj'⟩).isLower = true := hlow
        simp only [isAlignedScan]
        split_ifs <;>
          first
            | rfl
            | exact ih t' s' _ hj' ht' hlow'

theorem selectHitRow_default (alignData : DataDict) (mappingIdx : MapDict)
    (pid : List Char) (tc : Option Char) (qlen : Nat) (cl : List (Option Char))
    (h : ∀ ch ∈ cl, ∃ rcd, resolveRecord alignData mappingIdx (composePid pid ch) = some rcd ∧
        ¬ rcd.targetChain = tc) :
    selectHitRow alignData mappingIdx pid tc qlen cl =
      some (List.replicate qlen '*') := by
  induction cl with
  | nil => rfl
  | cons ch rest ih =>
    obtain ⟨rcd, hres, hne⟩ := h ch (List.mem_cons_self _ _)
    simp only [selectHitRow, hres]
    rw [if_neg hne]
    exact ih (fun x hx => h x (List.mem_cons_of_mem _ hx))

theorem isAlignedHit_eq_true_iff (attrIdx : List (List Char × List Char))
    (chainIdx : List (List Char × List (List Char))) (pid : List Char)
    (cl : List (Option Char)) :
    isAlignedHit attrIdx chainIdx pid cl = true ↔
      (alookup attrIdx pid).isSome = true ∧
        ∃ req, alookup chainIdx pid = some req ∧ req.length = cl.length := by
  unfold isAlignedHit
  cases ha : alookup attrIdx pid with
  | none => simp
  | some a =>
    cases hc : alookup chainIdx pid with
    | none => simp
    | some req => simp

theorem spansFrom_length (n : Nat) (qs : List (List Char)) :
    (spansFrom n qs).length = qs.length := by
  induction qs generalizing n with
  | nil => rfl
  | cons q t ih => simp [spansFrom, ih]

theorem maskLeadingGaps_of_head_ne (T : List Char) (h : ¬ T.head? = some '-') :
    maskLeadingGaps T = T := by
  cases T with
  | nil => rfl
  | cons c u =>
    have hc : ¬ c = '-' := fun hcc => h (by simp [hcc])
    exact maskLeadingGaps_cons_of_ne hc u

/-- Concrete attribute index used to instantiate the completeness filter. -/
def exAttrIdx : List (List Char × List Char) := [(['H','1'], ['a'])]

/-- Concrete chain-membership index requiring chains A and B for complex H1. -/
def exChainIdx : List (List Char × List (List Char)) := [(['H','1'], [['A'], ['B']])]

/-! ## Claims -/

/-- C1: a candidate hit accumulated in the coverage accumulator survives the
completeness filter of `align_complex` (src/main.py 230-238) if and only if
its base id has an entry in the attribute index, an entry in the
chain-membership index, and the membership index's chain count equals the
length of its accumulated chain-label list; a hit failing any of these
conditions is simply absent from the filtered map (the filter is total, so no
error is reported). -/
theorem c1_completeness_filter (attrIdx : List (List Char × List Char))
    (chainIdx : List (List Char × List (List Char))) (acc : ChainDict)
    (pid : List Char) (cl : List (Option Char))
    (hnd : (acc.map Prod.fst).Nodup) :
    alookup (filterComplete attrIdx chainIdx acc) pid = some cl ↔
      alookup acc pid = some cl ∧ (alookup attrIdx pid).isSome = true ∧
        ∃ req, alookup chainIdx pid = some req ∧ req.length = cl.length := by
  unfold filterComplete
  rw [alookup_filterKV _ _ _ _ hnd, isAlignedHit_eq_true_iff]

/-- C1 witness: a hit with both required chains accumulated, an attribute
entry and a matching chain count is retained. -/
theorem c1_completeness_filter_witness :
    (([(['H','1'], [some 'A', some 'B'])] : ChainDict).map Prod.fst).Nodup ∧
      (alookup (filterComplete exAttrIdx exChainIdx
            [(['H','1'], [some 'A', some 'B'])]) ['H','1'] =
          some [some 'A', some 'B'] ↔
        alookup ([(['H','1'], [some 'A', some 'B'])] : ChainDict) ['H','1'] =
            some [some 'A', some 'B'] ∧
          (alookup exAttrIdx ['H','1']).isSome = true ∧
          ∃ req, alookup exChainIdx ['H','1'] = some req ∧
            req.length = [some 'A', some 'B'].length) :=
  ⟨by decide, c1_completeness_filter exAttrIdx exChainIdx _ _ _ (by decide)⟩

/-- C2 counterexample: for a two-chain target with query lengths 3 and 4 the
emitted concatenated target sequence has length 7, not 7 + 100 x (2 - 1): the
source inserts no padding characters between chains. -/
theorem c2_target_concat_counterexample :
    ¬ ((buildTarget [['A','B','C'], ['D','E','F','G']]).1.length =
        3 + 4 + 100 * (2 - 1)) := by
  decide

/-- C2 (amended): the concatenated target sequence emitted as the first output
row has length exactly the sum of the per-chain query lengths, with no padding
characters; the 100-position inter-chain padding exists only in the recorded
domain coordinate system, where chain `i`'s 1-based span starts at
`1 + sum over j < i of (query length j + 100)` and ends at that start plus its
own query length minus 1. -/
theorem c2_target_concat (qs : List (List Char)) :
    (buildTarget qs).1.length = (qs.map List.length).sum ∧
      (buildTarget qs).2.1.length = qs.length ∧
      ∀ i (hi : i < qs.length),
        (buildTarget qs).2.1.get? i =
          some (domStart qs i,
            domStart qs i + (qs.get ⟨i, hi⟩).length - 1) := by
  have hb : buildTarget qs = (qs.flatten, spansFrom 1 qs,
      1 + (qs.map (fun q => q.length + 100)).sum) := by
    unfold buildTarget
    rw [buildTarget_fold]
    simp
  refine ⟨?_, ?_, ?_⟩
  · rw [hb]
    exact List.length_flatten _
  · rw [hb]
    exact spansFrom_length 1 qs
  · intro i hi
    rw [hb]
    exact spansFrom_get? qs 1 i hi

/-- C2 witness: at a concrete two-chain target the sequence length equals the
plain sum of chain lengths and the second chain's recorded span is computed
from a start offset by 100 beyond the first chain. -/
theorem c2_target_concat_witness :
    (buildTarget [['A','B','C'], ['D','E','F','G']]).1.length =
        ([['A','B','C'], ['D','E','F','G']].map List.length).sum ∧
      (buildTarget [['A','B','C'], ['D','E','F','G']]).2.1.get? 1 =
        some (domStart [['A','B','C'], ['D','E','F','G']] 1,
          domStart [['A','B','C'], ['D','E','F','G']] 1 +
            (([['A','B','C'], ['D','E','F','G']] : List (List Char)).get
              ⟨1, by decide⟩).length - 1) :=
  ⟨(c2_target_concat _).1, (c2_target_concat _).2.2 1 (by decide)⟩

/-- C3 counterexample: with reference "ABCDE" the automaton rejects the
candidate "--BCD--": gaps consume reference positions in lockstep, so after
the two leading gaps the comparison is at reference position 2 and the core
mismatches; the claim asserts this candidate is accepted. -/
theorem c3_automaton_examples_counterexample :
    mhcIsAligned ['A','B','C','D','E'] ['-','-','B','C','D','-','-'] = false := by
  decide

/-- C3 (amended): with reference "ABCDE" the automaton accepts "-BCD-" (a
single leading gap block and a single trailing gap block around an exactly
matching core, each gap consuming one reference position) and rejects
"A-C-E" (gap placement inside the core). -/
theorem c3_automaton_examples :
    mhcIsAligned ['A','B','C','D','E'] ['-','B','C','D','-'] = true ∧
      mhcIsAligned ['A','B','C','D','E'] ['A','-','C','-','E'] = false := by
  decide

/-- C4 counterexample: the candidate "AB" is shorter than the reference
"ABCDE" and its scan loop terminates with reference positions left
unconsumed, yet the predicate returns True, contradicting the claimed
rejection. -/
theorem c4_exhaustion_counterexample :
    ¬ (mhcIsAligned ['A','B','C','D','E'] ['A','B'] = false) := by
  decide

/-- C4 (amended): `_is_aligned` returns True whenever the lockstep scan ends
by exhausting either sequence without hitting an explicit rejection;
acceptance does not require consuming the full reference. In particular every
candidate that is a non-lowercase gap-free prefix of the reference is
accepted even though reference positions remain unconsumed. -/
theorem c4_exhaustion (t s : List Char) (hpre : ∃ r, t = s ++ r)
    (hlow : ∀ c ∈ s, c.isLower = false) (hgap : ∀ c ∈ s, ¬ c = '-') :
    mhcIsAligned t s = true := by
  obtain ⟨r, rfl⟩ := hpre
  cases s with
  | nil => cases r <;> rfl
  | cons c u =>
    have hc : c.isLower = false := hlow c (List.mem_cons_self _ _)
    have hg : ¬ c = '-' := hgap c (List.mem_cons_self _ _)
    have hrec := isAlignedScan_core_of_matches u r
      (fun x hx => hlow x (List.mem_cons_of_mem _ hx))
      (fun x hx => hgap x (List.mem_cons_of_mem _ hx))
    simp [mhcIsAligned, isAlignedScan, hc, hg, hrec]

/-- C4 witness: the amended theorem applied to reference "ABCDE" and the
strictly shorter candidate "AB". -/
theorem c4_exhaustion_witness :
    mhcIsAligned ['A','B','C','D','E'] ['A','B'] = true :=
  c4_exhaustion _ _ ⟨['C','D','E'], rfl⟩ (by decide) (by decide)

/-- C5 counterexample: the candidate "ABx" against reference "AB" contains a
lowercase letter, yet `_is_aligned` accepts it: the scan stops once the
reference is exhausted and never examines the lowercase position. -/
theorem c5_lowercase_counterexample :
    mhcIsAligned ['A','B'] ['A','B','x'] = true ∧ Char.isLower 'x' = true := by
  decide

/-- C5 (amended): a lowercase letter forces rejection exactly when it sits at
a scanned position, i.e. at an index below both the reference length and the
candidate length; the automaton then returns False regardless of state. A
lowercase letter at an index at or beyond the reference length is never
scanned and does not by itself cause rejection. -/
theorem c5_lowercase_reject (t s : List Char) (j : Nat) (hj : j < s.length)
    (ht : j < t.length) (hlow : (s.get ⟨j, hj⟩).isLower = true) :
    mhcIsAligned t s = false :=
  isAlignedScan_false_of_lower j t s 0 hj ht hlow

/-- C5 witness: the amended theorem applied to reference "AB" and candidate
"aB", whose lowercase letter sits at scanned position 0. -/
theorem c5_lowercase_reject_witness :
    mhcIsAligned ['A','B'] ['a','B'] = false :=
  c5_lowercase_reject ['A','B'] ['a','B'] 0 (by decide) (by decide) (by decide)

/-- C6: the gap normalization of `align_complex` (src/main.py 257-258,
282-283) preserves row length, and on a row made of a leading gap run, a core
that neither starts nor ends with a gap (so every internal gap run lies inside
the untouched core), and a trailing gap run, it replaces exactly the leading
and trailing runs with the same numbers of mask characters. -/
theorem c6_gap_masking :
    (∀ s : List Char, (normalizeRow s).length = s.length) ∧
      ∀ (a b : Nat) (m : List Char), ¬ m.head? = some '-' →
        ¬ m.getLast? = some '-' →
        normalizeRow (List.replicate a '-' ++ m ++ List.replicate b '-') =
          List.replicate a '*' ++ m ++ List.replicate b '*' := by
  constructor
  · exact length_normalizeRow
  · intro a b m hh hl
    cases m with
    | nil =>
      have h1 : List.replicate a '-' ++ ([] : List Char) ++ List.replicate b '-' =
          List.replicate (a + b) '-' := by
        rw [List.append_nil, ← List.replicate_add]
      rw [h1]
      have h2 : maskLeadingGaps (List.replicate (a + b) '-') =
          List.replicate (a + b) '*' := by
        have h3 := maskLeadingGaps_replicate_append (a + b) []
        have h4 : maskLeadingGaps ([] : List Char) = [] := rfl
        rw [List.append_nil, h4, List.append_nil] at h3
        exact h3
      unfold normalizeRow
      rw [h2, List.reverse_replicate, maskLeadingGaps_star_replicate,
        List.reverse_replicate, List.replicate_add]
      simp
    | cons c u =>
      have hc : ¬ c = '-' := fun hcc => hh (by subst hcc; rfl)
      have h1 : maskLeadingGaps
            (List.replicate a '-' ++ (c :: u) ++ List.replicate b '-') =
          List.replicate a '*' ++ (c :: (u ++ List.replicate b '-')) := by
        rw [List.append_assoc, maskLeadingGaps_replicate_append,
          List.cons_append, maskLeadingGaps_cons_of_ne hc]
      unfold normalizeRow
      rw [h1]
      have hrev1 : (List.replicate a '*' ++
            (c :: (u ++ List.replicate b '-'))).reverse =
          List.replicate b '-' ++ (u.reverse ++ (c :: List.replicate a '*')) := by
        simp [List.reverse_append, List.reverse_cons, List.reverse_replicate,
          List.append_assoc]
      rw [hrev1, maskLeadingGaps_replicate_append]
      have hT : ¬ (u.reverse ++ (c :: List.replicate a '*')).head? = some '-' := by
        cases hu : u.reverse with
        | nil => simp [hc]
        | cons d w =>
          have hlast : (c :: u).getLast? = some d := by
            rw [← List.head?_reverse]
            simp [List.reverse_cons, hu]
          have hd : ¬ d = '-' := fun hdd => hl (by rw [hlast, hdd])
          simp [hd]
      rw [maskLeadingGaps_of_head_ne _ hT]
      simp [List.reverse_append, List.reverse_cons, List.reverse_replicate,
        List.append_assoc]

/-- C6 witness: "---XYZ---" normalizes to "***XYZ***", while the purely
internal gap run of "XY--Z" is left unchanged. -/
theorem c6_gap_masking_witness :
    (normalizeRow (List.replicate 3 '-' ++ ['X','Y','Z'] ++ List.replicate 3 '-') =
        List.replicate 3 '*' ++ ['X','Y','Z'] ++ List.replicate 3 '*') ∧
      (normalizeRow (List.replicate 0 '-' ++ ['X','Y','-','-','Z'] ++
          List.replicate 0 '-') =
        List.replicate 0 '*' ++ ['X','Y','-','-','Z'] ++ List.replicate 0 '*') :=
  ⟨c6_gap_masking.2 3 3 ['X','Y','Z'] (by decide) (by decide),
   c6_gap_masking.2 0 0 ['X','Y','-','-','Z'] (by decide) (by decide)⟩

/-- C7 counterexample: for a surviving hit whose only accumulated chain record
is tagged with target chain B, the contribution at target chain A (query
length 3) is the mask-character placeholder, which is not the all-gap
placeholder the claim states. -/
theorem c7_placeholder_counterexample :
    selectHitRow [(['H','1','_','B'], ⟨[], ['-','Q','-'], [], some 'B'⟩)]
        [(['H','1','_','B'], ['H','1','_','B'])] ['H','1'] (some 'A') 3
        [some 'B'] =
      some ['*','*','*'] ∧ ¬ (['*','*','*'] : List Char) = ['-','-','-'] := by
  decide

/-- C7 (amended): in the per-hit assembly, when every record resolved along
the hit's accumulated chain list exists but none is tagged with the current
target chain, that chain's contribution to the hit's output row is a run of
mask characters — the no-coverage placeholder — spanning the target chain's
query length, not a run of gap characters. -/
theorem c7_placeholder (alignData : DataDict) (mappingIdx : MapDict)
    (pid : List Char) (tc : Option Char) (qlen : Nat) (cl : List (Option Char))
    (h : ∀ ch ∈ cl, ∃ rcd,
        resolveRecord alignData mappingIdx (composePid pid ch) = some rcd ∧
          ¬ rcd.targetChain = tc) :
    selectHitRow alignData mappingIdx pid tc qlen cl =
      some (List.replicate qlen '*') :=
  selectHitRow_default alignData mappingIdx pid tc qlen cl h

/-- C7 witness: the amended theorem at the concrete scenario of a single
accumulated chain whose record is tagged with a different target chain. -/
theorem c7_placeholder_witness :
    selectHitRow [(['H','1','_','B'], ⟨[], ['-','Q','-'], [], some 'B'⟩)]
        [(['H','1','_','B'], ['H','1','_','B'])] ['H','1'] (some 'A') 3
        [some 'B'] = some (List.replicate 3 '*') :=
  c7_placeholder _ _ _ _ _ _ (by
    intro ch hch
    simp only [List.mem_singleton] at hch
    subst hch
    exact ⟨⟨[], ['-','Q','-'], [], some 'B'⟩, by decide, by decide⟩)

/-- C8 counterexample: a hit row with composite id H1_A whose alias set
contains H2_B credits the alias's base H2 with the alias's own decomposed
chain label B, not with the hit's chain label A as the claim states. -/
theorem c8_register_credit_counterexample :
    covEntry (alignA3m [[], ['X']] [[], ['H','1','_','A']]
        [(['H','1','_','A'], [['H','2','_','B']])] ([], []) (some 'Q')).2
        ['H','2'] = [some 'B'] ∧ ¬ (some 'B' : Option Char) = some 'A' := by
  decide

/-- C8 (amended): `align_a3m` never registers the first (query) row — its
result does not depend on that row's content; every non-query row is
registered in the record store under its composite key (base id plus chain,
or the bare base id when chainless), tagged with the target chain being
processed, the last row with a given key winning; and each row appends, for
its composite id and every known alias of that composite id (deduplicated as
a set), the chain label obtained by decomposing THAT identifier — so an alias
contributes its own chain label, not the hit's — to that identifier's base id
coverage entry, in row order. -/
theorem c8_register_credit :
    (∀ (q q' qd qd' : List Char) (ss ds : List (List Char))
        (md : List (List Char × List (List Char))) (DC : DataDict × ChainDict)
        (tc : Option Char),
      alignA3m (q :: ss) (qd :: ds) md DC tc =
        alignA3m (q' :: ss) (qd' :: ds) md DC tc) ∧
    (∀ (seqs descs : List (List Char)) (md : List (List Char × List (List Char)))
        (DC : DataDict × ChainDict) (tc : Option Char) (k : List Char),
      alookup (alignA3m seqs descs md DC tc).1 k =
        match (seqs.tail.zip descs.tail).reverse.find?
            (fun r : List Char × List Char => decide (rowPdbId r.2 = k)) with
        | some r => some (rowRec r.1 r.2 tc)
        | none => alookup DC.1 k) ∧
    (∀ (seqs descs : List (List Char)) (md : List (List Char × List (List Char)))
        (DC : DataDict × ChainDict) (tc : Option Char) (b : List Char),
      covEntry (alignA3m seqs descs md DC tc).2 b =
        covEntry DC.2 b ++
          ((seqs.tail.zip descs.tail).map (fun r => rowCredits md r.2 b)).flatten) := by
  refine ⟨?_, ?_, ?_⟩
  · intro q q' qd qd' ss ds md DC tc
    rfl
  · intro seqs descs md DC tc k
    unfold alignA3m
    rw [alignFold_fst]
    rw [alookup_foldl_insertAt (fun r : List Char × List Char => rowPdbId r.2)
      (fun r : List Char × List Char => rowRec r.1 r.2 tc)]
    cases (seqs.tail.zip descs.tail).reverse.find?
        (fun r : List Char × List Char => decide (rowPdbId r.2 = k)) with
    | some r => rfl
    | none => rfl
  · intro seqs descs md DC tc b
    exact covEntry_rowsFold md tc _ DC b

/-- C9: resolution through an aliasing map built by the index reader is the
identity-fallback lookup performed by `read_a3m`: an id recorded as an alias
resolves to the canonical id of the last index line carrying it in the alias
column; an id absent from the alias column — be it a canonical id that is not
itself an alias, or an id unknown to the index — resolves to itself. -/
theorem c9_alias_resolution (lines : List (List Char × List Char)) (x : List Char) :
    resolvePid (readMappingIdx lines []) x =
      match lines.reverse.find? (fun kv => decide (kv.2 = x)) with
      | some kv => kv.1
      | none => x := by
  have h := alookup_foldl_insertAt (fun kv : List Char × List Char => kv.2)
    (fun kv : List Char × List Char => kv.1) lines ([] : MapDict) x
  unfold resolvePid readMappingIdx
  rw [h]
  cases lines.reverse.find? (fun kv => decide (kv.2 = x)) with
  | some kv => rfl
  | none => rfl

/-- C10: the coverage accumulator appends one chain label per processed row
per (deduplicated) alias without cross-row deduplication, and the
completeness filter compares the raw list length to the required chain count;
hence on concrete inputs a hit whose entry accumulates [A, A, B] covers both
required chains A and B of a two-chain complex yet is excluded (length 3
versus 2), while a hit whose entry accumulates [A, A] never covers required
chain B yet is retained (length 2 versus 2). -/
theorem c10_coverage_duplicates :
    (some 'A' ∈ covEntry (alignA3m [[], ['X'], ['Y'], ['Z']]
          [[], ['H','1','_','A'], ['H','1','_','A'], ['H','1','_','B']] []
          ([], []) (some 'Q')).2 ['H','1'] ∧
      some 'B' ∈ covEntry (alignA3m [[], ['X'], ['Y'], ['Z']]
          [[], ['H','1','_','A'], ['H','1','_','A'], ['H','1','_','B']] []
          ([], []) (some 'Q')).2 ['H','1'] ∧
      alookup (filterComplete exAttrIdx exChainIdx
          (alignA3m [[], ['X'], ['Y'], ['Z']]
            [[], ['H','1','_','A'], ['H','1','_','A'], ['H','1','_','B']] []
            ([], []) (some 'Q')).2) ['H','1'] = none) ∧
    (alookup (filterComplete exAttrIdx exChainIdx
          (alignA3m [[], ['X'], ['Y']]
            [[], ['H','1','_','A'], ['H','1','_','A']] [] ([], []) (some 'Q')).2)
          ['H','1'] = some [some 'A', some 'A'] ∧
      ¬ some 'B' ∈ [some 'A', some 'A']) := by
  decide
